import Mathlib

/-!
Verification of the plan-driven loop controller plugin.

The development shallowly embeds the plugin's plan parser, checkbox
write-back, completion detector, git-commit helper and loop controller
(state machine) as executable Lean definitions over `List Char` text, and
proves the specified properties about them.

Text is modelled as `List Char`; a file's content is split on the newline
character exactly as the source's split/join pair does.
-/

abbrev Text := List Char

/-- The JavaScript whitespace class (regex backslash-s, and the character set
trimmed by trim): space, tab, newline, carriage return, vertical tab, form
feed, NBSP, and the Unicode space separators, line separators and BOM. -/
def isJsSpace (c : Char) : Bool :=
  c = ' ' || c = '\t' || c = '\n' || c = '\r' ||
  c.val = 0x0B || c.val = 0x0C || c.val = 0xA0 ||
  c.val = 0x1680 || (0x2000 ≤ c.val && c.val ≤ 0x200A) ||
  c.val = 0x2028 || c.val = 0x2029 || c.val = 0x202F ||
  c.val = 0x205F || c.val = 0x3000 || c.val = 0xFEFF

/-- The JavaScript line-terminator class (the characters the regex dot does
not match): newline, carriage return and the Unicode line/paragraph
separators. -/
def isLineTerm (c : Char) : Bool :=
  c = '\n' || c = '\r' || c.val = 0x2028 || c.val = 0x2029

/-- content.split on the newline character: always returns at least one
(possibly empty) line, and no returned line contains a newline. -/
def splitLines : Text → List Text
  | [] => [[]]
  | c :: rest =>
    if c = '\n' then [] :: splitLines rest
    else
      match splitLines rest with
      | [] => [[c]]
      | l :: ls => (c :: l) :: ls

/-- lines.join on the newline character. -/
def joinLines : List Text → Text
  | [] => []
  | [l] => l
  | l :: l2 :: ls => l ++ '\n' :: joinLines (l2 :: ls)

theorem splitLines_ne_nil (t : Text) : splitLines t ≠ [] := by
  cases t with
  | nil => simp [splitLines]
  | cons c rest =>
    simp only [splitLines]
    split
    · simp
    · split <;> simp

theorem joinLines_splitLines (t : Text) : joinLines (splitLines t) = t := by
  induction t with
  | nil => rfl
  | cons c rest ih =>
    cases hr : splitLines rest with
    | nil => exact absurd hr (splitLines_ne_nil rest)
    | cons l ls =>
      rw [hr] at ih
      by_cases hc : c = '\n'
      · subst hc
        simp only [splitLines, if_pos rfl, hr]
        cases ls with
        | nil => simpa [joinLines] using ih
        | cons l2 ls2 => simpa [joinLines] using ih
      · simp only [splitLines, if_neg hc, hr]
        cases ls with
        | nil =>
          simp only [joinLines] at ih ⊢
          rw [ih]
        | cons l2 ls2 =>
          simp only [joinLines] at ih ⊢
          rw [List.cons_append, ih]

theorem splitLines_no_newline (t : Text) :
    ∀ l ∈ splitLines t, '\n' ∉ l := by
  induction t with
  | nil => intro l hl; simp [splitLines] at hl; simp [hl]
  | cons c rest ih =>
    intro l hl
    by_cases hc : c = '\n'
    · simp only [splitLines, if_pos hc] at hl
      rcases List.mem_cons.mp hl with h | h
      · simp [h]
      · exact ih l h
    · cases hr : splitLines rest with
      | nil => exact absurd hr (splitLines_ne_nil rest)
      | cons l0 ls =>
        simp only [splitLines, if_neg hc, hr] at hl
        rcases List.mem_cons.mp hl with h | h
        · subst h
          intro hmem
          rcases List.mem_cons.mp hmem with h' | h'
          · exact hc h'.symm
          · exact ih l0 (by simp [hr]) h'
        · exact ih l (by rw [hr]; exact List.mem_cons_of_mem _ h)

theorem splitLines_of_no_newline (l : Text) (hl : '\n' ∉ l) : splitLines l = [l] := by
  induction l with
  | nil => rfl
  | cons c cs ih =>
    have hc : c ≠ '\n' := fun hc => hl (by simp [hc])
    have hcs : '\n' ∉ cs := fun hm => hl (by simp [hm])
    simp [splitLines, hc, ih hcs]

theorem splitLines_append_newline (l t : Text) (hl : '\n' ∉ l) :
    splitLines (l ++ '\n' :: t) = l :: splitLines t := by
  induction l with
  | nil => simp [splitLines]
  | cons c cs ih =>
    have hc : c ≠ '\n' := fun hc => hl (by simp [hc])
    have hcs : '\n' ∉ cs := fun hm => hl (by simp [hm])
    simp [splitLines, hc, ih hcs]

theorem splitLines_joinLines (ls : List Text) (hne : ls ≠ [])
    (h : ∀ l ∈ ls, '\n' ∉ l) : splitLines (joinLines ls) = ls := by
  induction ls with
  | nil => exact absurd rfl hne
  | cons l rest ih =>
    cases rest with
    | nil => exact splitLines_of_no_newline l (h l (by simp))
    | cons l2 rest2 =>
      have hj : joinLines (l :: l2 :: rest2) = l ++ '\n' :: joinLines (l2 :: rest2) := rfl
      rw [hj, splitLines_append_newline l _ (h l (by simp)),
        ih (by simp) (fun x hx => h x (by simp [hx]))]

/-- text.trim: remove leading and trailing JS whitespace. -/
def trimText (t : Text) : Text :=
  ((t.dropWhile isJsSpace).reverse.dropWhile isJsSpace).reverse

mutual

/-- text.replace of every whitespace run by a single space (the source's
global backslash-s-plus to single space replacement), outside a run. -/
def collapseWs : Text → Text
  | [] => []
  | c :: rest => if isJsSpace c then ' ' :: collapseSkip rest else c :: collapseWs rest

/-- Companion to `collapseWs`: inside a whitespace run (the run was already
replaced by one space). -/
def collapseSkip : Text → Text
  | [] => []
  | c :: rest => if isJsSpace c then collapseSkip rest else c :: collapseWs rest

end

/-- Whether `pat` is a leading segment of `t` (character-by-character). -/
def textBegins : Text → Text → Bool
  | [], _ => true
  | _ :: _, [] => false
  | p :: ps, c :: cs => p = c && textBegins ps cs

/-- Index of the first occurrence of `pat` inside `t` (the unanchored regex
search for a literal pattern). -/
def findSub (pat : Text) : Text → Option Nat
  | [] => if textBegins pat [] then some 0 else none
  | c :: rest =>
    if textBegins pat (c :: rest) then some 0
    else (findSub pat rest).map (· + 1)

/-- `pat` occurs in `t` starting at index `i`. -/
def beginsAt (pat t : Text) (i : Nat) : Prop := textBegins pat (t.drop i) = true

theorem textBegins_iff (pat t : Text) :
    textBegins pat t = true ↔ ∃ post, t = pat ++ post := by
  induction pat generalizing t with
  | nil => simp [textBegins]
  | cons p ps ih =>
    cases t with
    | nil => simp [textBegins]
    | cons c cs =>
      simp only [textBegins, Bool.and_eq_true, decide_eq_true_eq, ih]
      constructor
      · rintro ⟨h1, post, h2⟩
        subst h1
        exact ⟨post, by rw [h2]; rfl⟩
      · rintro ⟨post, h⟩
        simp only [List.cons_append, List.cons.injEq] at h
        exact ⟨h.1.symm, post, h.2⟩

theorem findSub_none_iff (pat t : Text) :
    findSub pat t = none ↔ ∀ i, ¬ beginsAt pat t i := by
  induction t with
  | nil =>
    constructor
    · intro h i hb
      unfold beginsAt at hb
      simp only [List.drop_nil] at hb
      simp only [findSub, if_pos hb] at h
      exact Option.noConfusion h
    · intro h
      have h0 := h 0
      unfold beginsAt at h0
      simp only [List.drop_nil] at h0
      simp only [findSub, if_neg h0]
  | cons c rest ih =>
    by_cases hb : textBegins pat (c :: rest) = true
    · simp only [findSub, if_pos hb]
      constructor
      · intro h; exact Option.noConfusion h
      · intro h; exact absurd hb (h 0)
    · simp only [findSub, if_neg hb, Option.map_eq_none', ih]
      constructor
      · intro h i hbi
        cases i with
        | zero => exact hb hbi
        | succ j => exact h j hbi
      · intro h j hbj
        exact h (j + 1) hbj

theorem findSub_some_iff (pat t : Text) (i : Nat) :
    findSub pat t = some i ↔ (beginsAt pat t i ∧ ∀ j < i, ¬ beginsAt pat t j) := by
  induction t generalizing i with
  | nil =>
    by_cases hb : textBegins pat [] = true
    · simp only [findSub, if_pos hb]
      constructor
      · intro h
        injection h with h
        subst h
        exact ⟨hb, fun j hj => absurd hj (by omega)⟩
      · rintro ⟨_, hmin⟩
        cases i with
        | zero => rfl
        | succ n =>
          exact absurd hb (hmin 0 (Nat.succ_pos n))
    · simp only [findSub, if_neg hb]
      constructor
      · intro h; exact Option.noConfusion h
      · rintro ⟨hbe, _⟩
        unfold beginsAt at hbe
        simp only [List.drop_nil] at hbe
        exact absurd hbe hb
  | cons c rest ih =>
    by_cases hb : textBegins pat (c :: rest) = true
    · simp only [findSub, if_pos hb]
      constructor
      · intro h
        injection h with h
        subst h
        exact ⟨hb, fun j hj => absurd hj (by omega)⟩
      · rintro ⟨_, hmin⟩
        cases i with
        | zero => rfl
        | succ n => exact absurd hb (hmin 0 (Nat.succ_pos n))
    · simp only [findSub, if_neg hb, Option.map_eq_some']
      constructor
      · rintro ⟨j, hj, hji⟩
        subst hji
        obtain ⟨h1, h2⟩ := (ih j).mp hj
        refine ⟨h1, ?_⟩
        intro k hk
        cases k with
        | zero => exact fun hbk => hb hbk
        | succ m => exact h2 m (by omega)
      · rintro ⟨hbe, hmin⟩
        cases i with
        | zero => exact absurd hbe hb
        | succ n =>
          refine ⟨n, (ih n).mpr ⟨hbe, ?_⟩, rfl⟩
          intro m hm
          exact hmin (m + 1) (by omega)

theorem beginsAt_decomp (pat t : Text) (i : Nat) :
    beginsAt pat t i ∧ i ≤ t.length ↔
      ∃ pre post, t = pre ++ pat ++ post ∧ pre.length = i := by
  constructor
  · rintro ⟨hb, hi⟩
    rcases (textBegins_iff pat (t.drop i)).mp hb with ⟨post, hpost⟩
    refine ⟨t.take i, post, ?_, by simp [hi]⟩
    conv_lhs => rw [← List.take_append_drop i t]
    rw [hpost, List.append_assoc]
  · rintro ⟨pre, post, ht, hlen⟩
    subst ht
    subst hlen
    constructor
    · unfold beginsAt
      rw [List.append_assoc, List.drop_left]
      exact (textBegins_iff pat (pat ++ post)).mpr ⟨post, rfl⟩
    · simp [List.length_append]

theorem beginsAt_le_length (pat t : Text) (i : Nat) (hb : beginsAt pat t i)
    (hpat : pat ≠ []) : i ≤ t.length := by
  by_contra hgt
  have hd : t.drop i = [] := List.drop_eq_nil_of_le (by omega)
  rw [beginsAt, hd] at hb
  cases pat with
  | nil => exact hpat rfl
  | cons p ps => simp [textBegins] at hb

/-- The literal opening promise tag. -/
def openTag : Text := "<promise>".toList

/-- The literal closing promise tag. -/
def closeTag : Text := "</promise>".toList

/-- utils extractPromiseText: first non-greedy tag-delimited payload (the
leftmost opening tag followed by a closing tag, payload up to the first
closing tag), trimmed, internal whitespace runs collapsed to one space;
null when no delimited payload exists. -/
def extractPromiseText (t : Text) : Option Text :=
  match findSub openTag t with
  | none => none
  | some i =>
    match findSub closeTag (t.drop (i + openTag.length)) with
    | none => none
    | some j => some (collapseWs (trimText ((t.drop (i + openTag.length)).take j)))

/-- Task status; the parser only ever produces pending and completed. -/
inductive TaskStatus where
  | pending
  | in_progress
  | completed
  | skipped
deriving DecidableEq

/-- A task parsed from a plan file. -/
structure PlanTask where
  id : Text
  title : Text
  description : Text
  status : TaskStatus
  lineNumber : Nat
deriving DecidableEq

instance : Inhabited PlanTask := ⟨⟨[], [], [], TaskStatus.pending, 0⟩⟩

/-- A parsed plan file. -/
structure ParsedPlan where
  title : Text
  overview : Text
  tasks : List PlanTask
  completionPromise : Option Text
  rawContent : Text
deriving DecidableEq

/-- Case-insensitive literal matcher: `pat` (already lowercase) against the
lowercased text; returns the remainder after the matched segment. -/
def caselessBegins : Text → Text → Option Text
  | [], t => some t
  | _ :: _, [] => none
  | p :: ps, c :: cs => if c.toLower = p then caselessBegins ps cs else none

/-- The title line test (regex hash, whitespace-plus, dot-plus anchored at
start): a hash, at least one whitespace character, and after some nonempty
whitespace run a character the regex dot accepts. -/
def titleMatches (line : Text) : Bool :=
  match line with
  | '#' :: rest =>
    let run := (rest.takeWhile isJsSpace).length
    decide (1 ≤ run) &&
      (List.range' 1 run).any (fun j =>
        decide (j < rest.length) && !isLineTerm (rest.getD j ' '))
  | _ => false

/-- The title extraction: strip the leading hash and its maximal whitespace
run, then trim (the source's anchored replace by the empty string followed
by trim). -/
def extractTitle (line : Text) : Text :=
  match line with
  | '#' :: rest => trimText (rest.dropWhile isJsSpace)
  | _ => trimText line

/-- A character the promise-payload class accepts: anything but a quote,
an apostrophe or a newline. -/
def nonQuoteNl (c : Char) : Bool := !(c = '"' || c = '\'' || c = '\n')

/-- The promise directive's tail after the colon at a fixed whitespace
offset: an optional quote (preferred when present), then a nonempty greedy
run of payload characters (the capture); the final optional quote always
succeeds and is not part of the capture. -/
def promiseTailAt (r : Text) : Option Text :=
  match r with
  | c :: r2 =>
    if c = '"' || c = '\'' then
      let p := r2.takeWhile nonQuoteNl
      if p.isEmpty then none else some p
    else
      let p := r.takeWhile nonQuoteNl
      if p.isEmpty then none else some p
  | [] => none

/-- Backtracking over the greedy whitespace-star run after the colon: try
the longest run first, then shorter offsets down to zero. -/
def promiseTailFrom (rest : Text) : Nat → Option Text
  | 0 => promiseTailAt rest
  | j + 1 =>
    match promiseTailAt (rest.drop (j + 1)) with
    | some p => some p
    | none => promiseTailFrom rest j

/-- The promise directive's key (completion, optional underscore or hyphen,
promise-colon, case-insensitive) anchored at the front of `t`; returns the
remainder. Declining a present separator cannot recover (the letter p never
equals an underscore or hyphen), but the fallback mirrors the regex engine. -/
def promiseKeyAt (t : Text) : Option Text :=
  match caselessBegins ("completion".toList) t with
  | none => none
  | some r1 =>
    match r1 with
    | c :: r2 =>
      if c = '_' || c = '-' then
        match caselessBegins ("promise:".toList) r2 with
        | some r3 => some r3
        | none => caselessBegins ("promise:".toList) r1
      else caselessBegins ("promise:".toList) r1
    | [] => none

/-- Whole promise-directive match anchored at the front of `t`. -/
def promiseMatchAt (t : Text) : Option Text :=
  match promiseKeyAt t with
  | none => none
  | some tail => promiseTailFrom tail (tail.takeWhile isJsSpace).length

/-- Unanchored search for the promise directive: leftmost whole match wins,
as in the source's unanchored regex match; returns the captured payload. -/
def findPromiseIn : Text → Option Text
  | [] => none
  | c :: rest =>
    match promiseMatchAt (c :: rest) with
    | some p => some p
    | none => findPromiseIn rest

/-- A section marker line (double hash, whitespace-plus, then the given
word case-insensitively, anything after). -/
def sectionMatches (word : Text) (line : Text) : Bool :=
  match line with
  | '#' :: '#' :: rest =>
    let run := (rest.takeWhile isJsSpace).length
    decide (1 ≤ run) && (caselessBegins word (rest.drop run)).isSome
  | _ => false

/-- The literal double star used as an optional bold marker. -/
def starStar : Text := ['*', '*']

/-- The lazy title capture (dot-plus-lazy followed by an optional double
star and the end anchor): the shortest nonempty run of non-terminator
characters whose remainder is exactly a double star or empty. -/
def lazyTitle (u : Text) : Option Text :=
  ((List.range' 1 u.length).find? (fun k =>
      (u.take k).all (fun c => !isLineTerm c) &&
      (u.drop k == starStar || (u.drop k).isEmpty))).map (fun k => u.take k)

/-- The optional leading double star (consumed when possible, with fallback
to not consuming it) followed by the lazy title capture. -/
def titlePartAt (u : Text) : Option Text :=
  match (if textBegins starStar u then lazyTitle (u.drop 2) else none) with
  | some t => some t
  | none => lazyTitle u

/-- Backtracking over the greedy whitespace-star run after the checkbox:
longest run first, down to zero. -/
def taskTailFrom (rest : Text) : Nat → Option Text
  | 0 => titlePartAt rest
  | j + 1 =>
    match titlePartAt (rest.drop (j + 1)) with
    | some t => some t
    | none => taskTailFrom rest j

/-- The bracketed-marker part of the task-line regex, after the optional
dash: whitespace-star, bracket, one of space or x or X, bracket, then the
backtracking tail. -/
def matchTaskBox (r1 : Text) : Option (Char × Text) :=
  match r1.dropWhile isJsSpace with
  | '[' :: m :: ']' :: rest =>
    if m = ' ' || m = 'x' || m = 'X' then
      (taskTailFrom rest (rest.takeWhile isJsSpace).length).map (fun t => (m, t))
    else none
  | _ => none

/-- The optional dash of the task-line regex, consumed when present:
declining it cannot lead to a match because the bracket test would then
fail on the dash itself. -/
def stripDash (r : Text) : Text :=
  match r with
  | c :: rr => if c = '-' then rr else c :: rr
  | [] => []

/-- The dash-and-checkbox part of the task-line regex (optional dash,
whitespace-star, bracketed marker, whitespace-star, title part). The
whitespace before the bracket is consumed greedily with no backtracking
(whitespace never equals the opening bracket). Returns the marker character
and the raw title capture. -/
def matchTaskCore (r : Text) : Option (Char × Text) :=
  matchTaskBox (stripDash r)

/-- The optional numbered alternative of the task-line regex (digits-plus,
dot, whitespace-plus), then the core. The whitespace-plus run is consumed
greedily; a shorter run leaves a whitespace character where the core's
optional dash or bracket is tested, which cannot succeed, so greedy
consumption is faithful. -/
def matchTaskNum (line : Text) : Option (Char × Text) :=
  if (line.takeWhile (fun c => c.isDigit)).isEmpty then none
  else
    match line.dropWhile (fun c => c.isDigit) with
    | '.' :: r2 =>
      if (r2.takeWhile isJsSpace).isEmpty then none
      else matchTaskCore (r2.dropWhile isJsSpace)
    | _ => none

/-- The whole task-line regex: the numbered alternative is preferred; when
it fails the unnumbered core is tried (the two are disjoint: a line opening
with a digit never reaches the core's bracket test). -/
def matchTask (line : Text) : Option (Char × Text) :=
  match matchTaskNum line with
  | some r => some r
  | none => matchTaskCore line

/-- id string of the n-th task (task-n). -/
def taskId (n : Nat) : Text := "task-".toList ++ (toString n).toList

/-- The parse loop's mutable locals. -/
structure PState where
  title : Text
  overview : Text
  completionPromise : Option Text
  inOverview : Bool
  currentTask : Option PlanTask
  taskDescription : List Text
  tasks : List PlanTask
deriving DecidableEq

/-- The parse loop's initial locals. -/
def initPState : PState := ⟨[], [], none, false, none, [], []⟩

/-- Appending the open task (if any) to the task list, with its collected
description joined by newlines and trimmed. -/
def flushTask (st : PState) : List PlanTask :=
  match st.currentTask with
  | some t => st.tasks ++ [{ t with description := trimText (joinLines st.taskDescription) }]
  | none => st.tasks

/-- A description continuation line: at least two leading whitespace
characters and a nonempty trim. -/
def descLine (line : Text) : Bool :=
  match line with
  | c1 :: c2 :: _ => isJsSpace c1 && isJsSpace c2 && !(trimText line).isEmpty
  | _ => false

/-- One iteration of the parser's per-line loop, in the source's clause
order: title (only while unset — the emptiness test is the source's
falsiness test), promise directive, Overview marker, Tasks marker,
overview capture, task line, description continuation. -/
def stepLine (st : PState) (line : Text) (lineNumber : Nat) : PState :=
  if st.title.isEmpty && titleMatches line then
    { st with title := extractTitle line }
  else
    match findPromiseIn line with
    | some p => { st with completionPromise := some (trimText p) }
    | none =>
      if sectionMatches ("overview".toList) line then { st with inOverview := true }
      else if sectionMatches ("tasks".toList) line then { st with inOverview := false }
      else if st.inOverview && !(trimText line).isEmpty then
        { st with overview := st.overview ++ (if st.overview.isEmpty then [] else ['\n']) ++ line }
      else
        match matchTask line with
        | some mt =>
          { st with
            tasks := flushTask st,
            currentTask := some {
              id := taskId ((flushTask st).length + 1),
              title := trimText mt.2,
              description := [],
              status := if mt.1.toLower = 'x' then TaskStatus.completed else TaskStatus.pending,
              lineNumber := lineNumber },
            taskDescription := [] }
        | none =>
          if st.currentTask.isSome && descLine line then
            { st with taskDescription := st.taskDescription ++ [trimText line] }
          else st

/-- The parser's loop over the split lines, carrying the 1-based line
number. -/
def parseLines : PState → List Text → Nat → PState
  | st, [], _ => st
  | st, l :: ls, n => parseLines (stepLine st l n) ls (n + 1)

/-- parsePlanFile: split the content on newlines, run the per-line loop,
flush the last open task; rawContent is the input itself. -/
def parsePlanFile (content : Text) : ParsedPlan :=
  { title := (parseLines initPState (splitLines content) 1).title,
    overview := (parseLines initPState (splitLines content) 1).overview,
    tasks := flushTask (parseLines initPState (splitLines content) 1),
    completionPromise := (parseLines initPState (splitLines content) 1).completionPromise,
    rawContent := content }

/-- The status argument of updateTaskStatus (the source's two-string
union). -/
inductive NewStatus where
  | completed
  | pending
deriving DecidableEq

/-- Replace the first three-character bracket group whose middle character
satisfies `isMark` by `rep` (the source's non-global regex replace of a
bracketed class character); leaves the text unchanged when no such group
occurs. -/
def replaceFirstBox (isMark : Char → Bool) (rep : Text) : Text → Text
  | [] => []
  | c :: cs =>
    if c = '[' then
      match cs with
      | m :: ']' :: rest =>
        if isMark m then rep ++ rest else c :: replaceFirstBox isMark rep cs
      | _ => c :: replaceFirstBox isMark rep cs
    else c :: replaceFirstBox isMark rep cs

/-- The pending checkbox's marker class (regex whitespace inside
brackets). -/
def pendingBoxMark (c : Char) : Bool := isJsSpace c

/-- The completed checkbox's marker class (x or X inside brackets). -/
def completedBoxMark (c : Char) : Bool := c = 'x' || c = 'X'

/-- The per-line checkbox rewrite of updateTaskStatus: completing replaces
the first whitespace box by a lowercase-x box, un-completing replaces the
first x-or-X box by a space box. -/
def boxUpdate (newStatus : NewStatus) (line : Text) : Text :=
  match newStatus with
  | NewStatus.completed => replaceFirstBox pendingBoxMark ("[x]".toList) line
  | NewStatus.pending => replaceFirstBox completedBoxMark ("[ ]".toList) line

/-- updateTaskStatus: look the task up by id (input unchanged when absent),
split into lines, rewrite the single line indexed by the task's 1-based
lineNumber, and join. The source indexes the line array directly; for tasks
produced by the parser the index is always in range (the only use), and the
model totalizes the lookup with the empty line. -/
def updateTaskStatus (content : Text) (tid : Text) (tasks : List PlanTask)
    (newStatus : NewStatus) : Text :=
  match tasks.find? (fun t => t.id == tid) with
  | none => content
  | some task =>
    joinLines ((splitLines content).set (task.lineNumber - 1)
      (boxUpdate newStatus ((splitLines content).getD (task.lineNumber - 1) [])))

/-- The environment of external git commands a commit attempt observes:
whether the directory is version-controlled, the porcelain status output,
and the outcomes of the staging and commit invocations. -/
structure GitEnv where
  isRepo : Bool
  statusOut : Text
  addOk : Bool
  addErr : Text
  commitOk : Bool
  commitErr : Text
deriving DecidableEq

/-- The result value of a commit attempt. -/
structure CommitResult where
  success : Bool
  message : Text
deriving DecidableEq

/-- The global replace of every literal double star by the empty string. -/
def removeDoubleStars : Text → Text
  | '*' :: '*' :: rest => removeDoubleStars rest
  | c :: rest => c :: removeDoubleStars rest
  | [] => []

/-- createGitCommit: check that the tree is version-controlled, then that
the porcelain status is nonempty after trimming, then stage; derive the
subject from the cleaned title (the part before the first " - " separator
when present); each failing step returns a non-fatal result with a reason
message. The description after the separator is passed to the external
commit call as a second paragraph, which the model abstracts into the
environment's commit outcome. -/
def createGitCommit (env : GitEnv) (taskTitle : Text) (taskNum : Int) : CommitResult :=
  if !env.isRepo then
    { success := false, message := "Not a git repository".toList }
  else if (trimText env.statusOut).isEmpty then
    { success := false, message := "No changes to commit".toList }
  else if !env.addOk then
    { success := false, message := "Failed to stage changes: ".toList ++ env.addErr }
  else
    let cleanTitle := trimText (removeDoubleStars taskTitle)
    let commitSubject :=
      match findSub (" - ".toList) cleanTitle with
      | some idx =>
        "feat(ralph): task ".toList ++ (toString taskNum).toList ++ " - ".toList ++
          trimText (cleanTitle.take idx)
      | none =>
        "feat(ralph): task ".toList ++ (toString taskNum).toList ++ " - ".toList ++ cleanTitle
    if !env.commitOk then
      { success := false, message := "Failed to commit: ".toList ++ env.commitErr }
    else
      { success := true, message := "Created commit: ".toList ++ commitSubject }

/-- What markTaskCompleteAndCommit produces: a thrown error (plan missing
or task number out of range) or the task title together with the optional
commit result. -/
inductive MarkOutcome where
  | err (msg : Text)
  | ok (taskTitle : Text) (commitResult : Option CommitResult)
deriving DecidableEq

/-- markTaskCompleteAndCommit: read the plan (throw when missing), parse,
throw when the task number is out of range, write the plan back with the
task completed unless it already is, then attempt the commit when asked.
The first component is the plan file's content after the call. -/
def markTaskCompleteAndCommit (env : GitEnv) (content : Option Text) (taskNum : Int)
    (shouldCommit : Bool) : Option Text × MarkOutcome :=
  match content with
  | none => (none, MarkOutcome.err ("Plan file not found".toList))
  | some c =>
    let plan := parsePlanFile c
    if taskNum < 1 ∨ taskNum > (plan.tasks.length : Int) then
      (some c, MarkOutcome.err ("Invalid task number".toList))
    else
      let task := plan.tasks.getD (taskNum - 1).toNat default
      let newContent :=
        if task.status = TaskStatus.completed then c
        else updateTaskStatus c task.id plan.tasks NewStatus.completed
      (some newContent,
        MarkOutcome.ok task.title
          (if shouldCommit then some (createGitCommit env task.title taskNum) else none))

/-- The two named loop modes; absence of a mode is the legacy direct
loop. -/
inductive Mode where
  | loop
  | singleTask
deriving DecidableEq

/-- The persisted loop state. -/
structure RalphState where
  active : Bool
  iteration : Int
  maxIterations : Int
  completionPromise : Option Text
  prompt : Text
  sessionId : Option Text
  startedAt : Text
  planFile : Option Text
  currentTaskId : Option Text
  mode : Option Mode
  currentTaskNum : Option Int
deriving DecidableEq

/-- JS truthiness of an optional string: present and nonempty. -/
def optTextTruthy : Option Text → Bool
  | some s => !s.isEmpty
  | none => false

/-- JS truthiness of an optional number: present and nonzero. -/
def optIntTruthy : Option Int → Bool
  | some n => decide (n ≠ 0)
  | none => false

/-- The JS or-else on optional strings (first operand when truthy). -/
def orText (a b : Option Text) : Option Text :=
  if optTextTruthy a then a else b

/-- One part of a transcript message; only string text parts count. -/
structure MsgPart where
  isText : Bool
  text : Text
deriving DecidableEq

/-- One transcript message: a role and its parts. -/
structure Message where
  role : Text
  parts : List MsgPart
deriving DecidableEq

/-- The completion equality test the idle handler applies to one text part:
the extracted promise strictly equals the target (null never equals a
string). -/
def promiseSatisfied (candidate target : Text) : Bool :=
  extractPromiseText candidate == some target

/-- Whether any text part of a message satisfies the promise. -/
def msgHasPromise (m : Message) (target : Text) : Bool :=
  m.parts.any (fun p => p.isText && promiseSatisfied p.text target)

/-- checkCompletionInSession: the source walks indices from the last
message down to the greater of zero and length minus five (the last five
messages in reverse recency order), skips non-assistant messages, and
returns at the first part whose extracted promise equals the target; that
loop computes exactly the any over the reversed five-message suffix. -/
def checkCompletionInSession (msgs : List Message) (target : Text) : Bool :=
  ((msgs.drop (msgs.length - 5)).reverse).any (fun m =>
    m.role == "assistant".toList && msgHasPromise m target)

/-- Array.findIndex, with none for the source's minus one. -/
def jsFindIndex {α : Type} (p : α → Bool) : List α → Option Nat
  | [] => none
  | a :: as =>
    if p a then some 0 else (jsFindIndex p as).map (· + 1)

/-- The predicate of the next-pending search: status is not completed. -/
def notCompleted (t : PlanTask) : Bool := t.status != TaskStatus.completed

/-- The idle handler's (and rw-start's) next-pending-task index: findIndex
over the parsed tasks in document order. -/
def nextPendingIdx (tasks : List PlanTask) : Option Nat := jsFindIndex notCompleted tasks

/-- What the idle handler did, abstracting logging and toasts. -/
inductive EventAction where
  | ignored
  | noSessionWarn
  | singleDone
  | planMissing
  | allComplete
  | promiseDone
  | maxIterReached
  | promptSent (taskNum : Int)
  | legacyPromiseDone
  | legacyMaxIter
  | legacyPrompt
deriving DecidableEq

/-- The idle handler's observable outcome: the state-file writes in order,
whether the state file was removed, the plan file's content afterwards, and
the action taken. -/
structure EventOutcome where
  stateWrites : List RalphState
  removed : Bool
  planContent : Option Text
  action : EventAction
deriving DecidableEq

/-- The idle handler's single-task branch: mark the current task complete
without a commit when the plan file and task number are truthy (errors are
caught and logged), then remove the state unconditionally. -/
def singleTaskBranch (env : GitEnv) (st : RalphState) (sidWrites : List RalphState)
    (planContent : Option Text) : EventOutcome :=
  if optTextTruthy st.planFile && optIntTruthy st.currentTaskNum then
    { stateWrites := sidWrites, removed := true,
      planContent := (markTaskCompleteAndCommit env planContent (st.currentTaskNum.getD 0) false).1,
      action := EventAction.singleDone }
  else
    { stateWrites := sidWrites, removed := true, planContent := planContent,
      action := EventAction.singleDone }

/-- The idle handler's loop branch: mark the current task complete with a
commit attempt (errors caught and logged); re-read and re-parse the plan
(state removed when the file is missing); stop when no task is pending;
stop when a set completion promise is satisfied in the recent transcript
window; stop when positive maxIterations is reached by the current
iteration; otherwise advance the iteration and the current task to the
next pending one, persist, and send the next prompt. -/
def loopBranch (env : GitEnv) (st : RalphState) (sidWrites : List RalphState)
    (planContent : Option Text) (msgs : List Message) : EventOutcome :=
  match (if optIntTruthy st.currentTaskNum then
          (markTaskCompleteAndCommit env planContent (st.currentTaskNum.getD 0) true).1
         else planContent) with
  | none =>
    { stateWrites := sidWrites, removed := true, planContent := none,
      action := EventAction.planMissing }
  | some c =>
    match nextPendingIdx (parsePlanFile c).tasks with
    | none =>
      { stateWrites := sidWrites, removed := true, planContent := some c,
        action := EventAction.allComplete }
    | some idx =>
      if optTextTruthy st.completionPromise &&
          checkCompletionInSession msgs (st.completionPromise.getD []) then
        { stateWrites := sidWrites, removed := true, planContent := some c,
          action := EventAction.promiseDone }
      else if st.maxIterations > 0 ∧ st.iteration ≥ st.maxIterations then
        { stateWrites := sidWrites, removed := true, planContent := some c,
          action := EventAction.maxIterReached }
      else
        { stateWrites := sidWrites ++
            [{ st with iteration := st.iteration + 1,
                       currentTaskId := some ((parsePlanFile c).tasks.getD idx default).id,
                       currentTaskNum := some ((idx : Int) + 1) }],
          removed := false, planContent := some c,
          action := EventAction.promptSent ((idx : Int) + 1) }

/-- The idle handler's legacy branch (no plan): stop when a set promise is
satisfied, stop at max iterations, otherwise advance the iteration,
persist, and resend the stored prompt verbatim. -/
def legacyBranch (st : RalphState) (sidWrites : List RalphState)
    (planContent : Option Text) (msgs : List Message) : EventOutcome :=
  if optTextTruthy st.completionPromise &&
      checkCompletionInSession msgs (st.completionPromise.getD []) then
    { stateWrites := sidWrites, removed := true, planContent := planContent,
      action := EventAction.legacyPromiseDone }
  else if st.maxIterations > 0 ∧ st.iteration ≥ st.maxIterations then
    { stateWrites := sidWrites, removed := true, planContent := planContent,
      action := EventAction.legacyMaxIter }
  else
    { stateWrites := sidWrites ++ [{ st with iteration := st.iteration + 1 }],
      removed := false, planContent := planContent, action := EventAction.legacyPrompt }

/-- The idle handler's mode dispatch, after the session id was resolved and
persisted when new: single-task mode, loop mode with a truthy plan file,
else the legacy direct loop. -/
def handleIdleDispatch (env : GitEnv) (st : RalphState) (sidWrites : List RalphState)
    (planContent : Option Text) (msgs : List Message) : EventOutcome :=
  if st.mode == some Mode.singleTask then
    singleTaskBranch env st sidWrites planContent
  else if st.mode == some Mode.loop && optTextTruthy st.planFile then
    loopBranch env st sidWrites planContent msgs
  else
    legacyBranch st sidWrites planContent msgs

/-- The session-idle event handler: ignore when no active state is
persisted; resolve the session id (event id when truthy, else the stored
one) and warn without touching anything when none resolves; persist the
newly observed session id when it differs; then dispatch on the mode. -/
def handleIdle (env : GitEnv) (stOpt : Option RalphState) (eventSessionId : Option Text)
    (planContent : Option Text) (msgs : List Message) : EventOutcome :=
  match stOpt with
  | none =>
    { stateWrites := [], removed := false, planContent := planContent,
      action := EventAction.ignored }
  | some st0 =>
    if !st0.active then
      { stateWrites := [], removed := false, planContent := planContent,
        action := EventAction.ignored }
    else
      if !optTextTruthy (orText eventSessionId st0.sessionId) then
        { stateWrites := [], removed := false, planContent := planContent,
          action := EventAction.noSessionWarn }
      else
        if orText eventSessionId st0.sessionId != st0.sessionId then
          handleIdleDispatch env
            { st0 with sessionId := orText eventSessionId st0.sessionId }
            [{ st0 with sessionId := orText eventSessionId st0.sessionId }]
            planContent msgs
        else
          handleIdleDispatch env st0 [] planContent msgs

/-- The result of the direct loop start tool. -/
inductive RwLoopResult where
  | noPromptErr
  | alreadyActive (iteration : Int)
  | started (st : RalphState)
deriving DecidableEq

/-- The state the direct loop start persists. -/
def rwLoopState (prompt : Text) (maxIterations : Int) (completionPromise : Option Text)
    (sessionId : Option Text) (startedAt : Text) : RalphState :=
  { active := true, iteration := 1, maxIterations := maxIterations,
    completionPromise := if optTextTruthy completionPromise then completionPromise else none,
    prompt := prompt, sessionId := sessionId, startedAt := startedAt,
    planFile := none, currentTaskId := none, mode := none, currentTaskNum := none }

/-- The direct loop start: reject an empty or whitespace-only prompt,
reject when an active state exists (without writing anything), else
persist a fresh active state at iteration one. -/
def rwLoop (existing : Option RalphState) (prompt : Text) (maxIterations : Int)
    (completionPromise : Option Text) (sessionId : Option Text) (startedAt : Text) :
    RwLoopResult :=
  if (trimText prompt).isEmpty then RwLoopResult.noPromptErr
  else
    match existing with
    | some st =>
      if st.active then RwLoopResult.alreadyActive st.iteration
      else RwLoopResult.started (rwLoopState prompt maxIterations completionPromise sessionId startedAt)
    | none => RwLoopResult.started (rwLoopState prompt maxIterations completionPromise sessionId startedAt)

/-- The result of the plan-based loop start tool. -/
inductive RwStartResult where
  | planNotFound
  | noTasks
  | allComplete
  | alreadyActive (iteration : Int)
  | started (st : RalphState)
deriving DecidableEq

/-- The state the plan-based loop start persists: loop mode, iteration one,
the first pending task in document order (the findIndex cannot miss here
because a pending task exists, which the getD totalizes). -/
def rwStartState (plan : ParsedPlan) (planFile : Text) (maxIterations : Int)
    (sessionId : Option Text) (startedAt : Text) : RalphState :=
  { active := true, iteration := 1, maxIterations := maxIterations,
    completionPromise :=
      if optTextTruthy plan.completionPromise then plan.completionPromise else none,
    prompt := [], sessionId := sessionId, startedAt := startedAt,
    planFile := some planFile,
    currentTaskId := some (plan.tasks.getD ((nextPendingIdx plan.tasks).getD 0) default).id,
    mode := some Mode.loop,
    currentTaskNum := some (((nextPendingIdx plan.tasks).getD 0 : Int) + 1) }

/-- The plan-based loop start, with the source's check order: plan file
missing, no tasks, no pending task, then the active-state check (each
failing check returns without writing anything), else persist the loop
state. -/
def rwStart (existing : Option RalphState) (planContent : Option Text) (planFile : Text)
    (maxIterations : Int) (sessionId : Option Text) (startedAt : Text) : RwStartResult :=
  match planContent with
  | none => RwStartResult.planNotFound
  | some c =>
    if (parsePlanFile c).tasks.length = 0 then RwStartResult.noTasks
    else if ((parsePlanFile c).tasks.filter notCompleted).length = 0 then RwStartResult.allComplete
    else
      match existing with
      | some st =>
        if st.active then RwStartResult.alreadyActive st.iteration
        else RwStartResult.started (rwStartState (parsePlanFile c) planFile maxIterations sessionId startedAt)
      | none => RwStartResult.started (rwStartState (parsePlanFile c) planFile maxIterations sessionId startedAt)

/-- parseInt base ten on a trimmed-leading string: optional sign then a
nonempty leading digit run; none for NaN. -/
def parseIntJs (t : Text) : Option Int :=
  match (t.dropWhile isJsSpace) with
  | '-' :: ds =>
    match ds.takeWhile (fun c => c.isDigit) with
    | [] => none
    | digits => some (-(digits.foldl (fun acc c => acc * 10 + (c.toNat - 48)) 0 : Int))
  | '+' :: ds =>
    match ds.takeWhile (fun c => c.isDigit) with
    | [] => none
    | digits => some ((digits.foldl (fun acc c => acc * 10 + (c.toNat - 48)) 0 : Int))
  | ds =>
    match ds.takeWhile (fun c => c.isDigit) with
    | [] => none
    | digits => some ((digits.foldl (fun acc c => acc * 10 + (c.toNat - 48)) 0 : Int))

/-- Lowercasing for the case-insensitive name search. -/
def textToLower (t : Text) : Text := t.map Char.toLower

/-- substring containment (String.includes). -/
def containsSub (t pat : Text) : Bool := (findSub pat t).isSome

/-- The name fallback of the single-task tool's lookup: first task whose
lowercased title contains the lowercased argument, with its 1-based
number. -/
def taskNameSearch (tasks : List PlanTask) (argTask : Text) : Option (PlanTask × Int) :=
  (jsFindIndex (fun t => containsSub (textToLower t.title) (textToLower argTask)) tasks).map
    (fun i => (tasks.getD i default, (i : Int) + 1))

/-- The single-task tool's task lookup: a parsed in-range number selects by
position; otherwise (no parse or out of range) the name search runs. -/
def findTaskArg (tasks : List PlanTask) (argTask : Text) : Option (PlanTask × Int) :=
  match parseIntJs argTask with
  | some n =>
    if 1 ≤ n ∧ n ≤ (tasks.length : Int) then some (tasks.getD (n - 1).toNat default, n)
    else taskNameSearch tasks argTask
  | none => taskNameSearch tasks argTask

/-- The result of the single-task execute tool. -/
inductive RwTaskResult where
  | planNotFound
  | noTasks
  | taskNotFound
  | alreadyCompleted (title : Text)
  | alreadyActive (iteration : Int)
  | started (st : RalphState)
deriving DecidableEq

/-- The state the single-task execute tool persists: single-task mode,
iteration one, maxIterations one. -/
def rwTaskState (planFile : Text) (task : PlanTask) (resolvedNum : Int)
    (sessionId : Option Text) (startedAt : Text) : RalphState :=
  { active := true, iteration := 1, maxIterations := 1, completionPromise := none,
    prompt := [], sessionId := sessionId, startedAt := startedAt,
    planFile := some planFile, currentTaskId := some task.id,
    mode := some Mode.singleTask, currentTaskNum := some resolvedNum }

/-- The single-task execute tool, in the source's check order: plan
missing, no tasks, task lookup, task already completed, active-state
check, then persist. -/
def rwTask (existing : Option RalphState) (planContent : Option Text) (planFile : Text)
    (argTask : Text) (sessionId : Option Text) (startedAt : Text) : RwTaskResult :=
  match planContent with
  | none => RwTaskResult.planNotFound
  | some c =>
    if (parsePlanFile c).tasks.length = 0 then RwTaskResult.noTasks
    else
      match findTaskArg (parsePlanFile c).tasks argTask with
      | none => RwTaskResult.taskNotFound
      | some tn =>
        if tn.1.status = TaskStatus.completed then RwTaskResult.alreadyCompleted tn.1.title
        else
          match existing with
          | some st =>
            if st.active then RwTaskResult.alreadyActive st.iteration
            else RwTaskResult.started (rwTaskState planFile tn.1 tn.2 sessionId startedAt)
          | none => RwTaskResult.started (rwTaskState planFile tn.1 tn.2 sessionId startedAt)

/-- The state-file writes a direct loop start performs. -/
def rwLoopWrites : RwLoopResult → List RalphState
  | RwLoopResult.started s => [s]
  | _ => []

/-- The state-file writes a plan-based loop start performs. -/
def rwStartWrites : RwStartResult → List RalphState
  | RwStartResult.started s => [s]
  | _ => []

/-- The state-file writes a single-task start performs. -/
def rwTaskWrites : RwTaskResult → List RalphState
  | RwTaskResult.started s => [s]
  | _ => []

theorem jsFindIndex_some_iff {α : Type} (p : α → Bool) (l : List α) (i : Nat) :
    jsFindIndex p l = some i ↔
      ((∃ a, l[i]? = some a ∧ p a = true) ∧ ∀ b ∈ l.take i, p b = false) := by
  induction l generalizing i with
  | nil => simp [jsFindIndex]
  | cons a as ih =>
    by_cases hp : p a = true
    · simp only [jsFindIndex, if_pos hp]
      cases i with
      | zero => simp [hp]
      | succ n =>
        constructor
        · intro h; exact absurd h (by simp)
        · rintro ⟨_, hmin⟩
          have ha := hmin a (by simp [List.take_succ_cons])
          rw [ha] at hp; cases hp
    · simp only [jsFindIndex, if_neg hp, Option.map_eq_some']
      cases i with
      | zero =>
        constructor
        · rintro ⟨j, _, hj⟩; omega
        · rintro ⟨⟨a0, ha0, hpa0⟩, _⟩
          simp only [List.getElem?_cons_zero, Option.some.injEq] at ha0
          subst ha0
          exact absurd hpa0 hp
      | succ n =>
        constructor
        · rintro ⟨j, hj, hjn⟩
          have hje : n = j := by omega
          subst hje
          obtain ⟨h1, h2⟩ := (ih n).mp hj
          refine ⟨by simpa using h1, ?_⟩
          intro b hb
          rw [List.take_succ_cons] at hb
          rcases List.mem_cons.mp hb with hba | hbm
          · subst hba; exact Bool.not_eq_true _ |>.mp hp
          · exact h2 b hbm
        · rintro ⟨h1, h2⟩
          refine ⟨n, (ih n).mpr ⟨by simpa using h1,
            fun b hb => h2 b (by rw [List.take_succ_cons]; exact List.mem_cons_of_mem _ hb)⟩, rfl⟩

theorem jsFindIndex_none_iff {α : Type} (p : α → Bool) (l : List α) :
    jsFindIndex p l = none ↔ ∀ a ∈ l, p a = false := by
  induction l with
  | nil => simp [jsFindIndex]
  | cons a as ih =>
    by_cases hp : p a = true
    · simp [jsFindIndex, hp]
    · simp only [jsFindIndex, if_neg hp, Option.map_eq_none', ih]
      constructor
      · intro h b hb
        rcases List.mem_cons.mp hb with hba | hbm
        · subst hba; exact Bool.not_eq_true _ |>.mp hp
        · exact h b hbm
      · intro h b hb
        exact h b (List.mem_cons_of_mem _ hb)

/-- The parser's id-numbering invariant over the loop state: finished tasks
carry ids by position, the open task carries the next id. -/
def idsOk (st : PState) : Prop :=
  (∀ k : Nat, ∀ t : PlanTask, st.tasks[k]? = some t → t.id = taskId (k + 1)) ∧
  (∀ t : PlanTask, st.currentTask = some t → t.id = taskId (st.tasks.length + 1))

theorem flushTask_of_none (st : PState) (h : st.currentTask = none) :
    flushTask st = st.tasks := by
  unfold flushTask; rw [h]

theorem flushTask_of_some (st : PState) (ct : PlanTask) (h : st.currentTask = some ct) :
    flushTask st =
      st.tasks ++ [{ ct with description := trimText (joinLines st.taskDescription) }] := by
  unfold flushTask; rw [h]

theorem flushTask_ids (st : PState) (h : idsOk st) :
    ∀ k : Nat, ∀ t : PlanTask, (flushTask st)[k]? = some t → t.id = taskId (k + 1) := by
  intro k t ht
  cases hct : st.currentTask with
  | none => rw [flushTask_of_none st hct] at ht; exact h.1 k t ht
  | some ct =>
    rw [flushTask_of_some st ct hct] at ht
    by_cases hk : k < st.tasks.length
    · rw [List.getElem?_append_left hk] at ht
      exact h.1 k t ht
    · by_cases hk2 : k < st.tasks.length + 1
      · have hke : k = st.tasks.length := by omega
        subst hke
        rw [List.getElem?_append_right (by omega)] at ht
        simp only [Nat.sub_self, List.getElem?_cons_zero, Option.some.injEq] at ht
        subst ht
        exact h.2 ct hct
      · rw [List.getElem?_eq_none (by simp; omega)] at ht
        exact Option.noConfusion ht

theorem stepLine_idsOk (st : PState) (l : Text) (n : Nat) (h : idsOk st) :
    idsOk (stepLine st l n) := by
  unfold stepLine
  split
  · exact h
  · split
    · exact h
    · split
      · exact h
      · split
        · exact h
        · split
          · exact h
          · split
            · constructor
              · exact fun k t ht => flushTask_ids st h k t ht
              · intro t ht
                simp only [Option.some.injEq] at ht
                subst ht
                rfl
            · split
              · exact ⟨h.1, fun t ht => h.2 t ht⟩
              · exact h

theorem parseLines_idsOk (ls : List Text) (st : PState) (n : Nat) (h : idsOk st) :
    idsOk (parseLines st ls n) := by
  induction ls generalizing st n with
  | nil => exact h
  | cons l ls ih => exact ih (stepLine st l n) (n + 1) (stepLine_idsOk st l n h)

theorem parse_ids (content : Text) :
    ∀ k : Nat, ∀ t : PlanTask, (parsePlanFile content).tasks[k]? = some t →
      t.id = taskId (k + 1) := by
  intro k t ht
  have h0 : idsOk initPState := by
    constructor
    · intro k t ht; simp [initPState] at ht
    · intro t ht; simp [initPState] at ht
  exact flushTask_ids _ (parseLines_idsOk (splitLines content) initPState 1 h0) k t ht

/-- Claim C2: the next-pending selection (used verbatim by the idle
handler's advance and by the plan start's first-task pick) returns the
lowest document-order index whose status is not completed, skipping every
already-completed task before it; it returns none exactly when every task
is completed; and the parser numbers tasks by document position (ids
task-1, task-2, ... in order), so skipping never reorders or renumbers the
remaining tasks. -/
theorem nextPending_lowest_index :
    ∀ (tasks : List PlanTask) (i : Nat) (content : Text),
      (nextPendingIdx tasks = some i ↔
        ((∃ t, tasks[i]? = some t ∧ t.status ≠ TaskStatus.completed) ∧
         ∀ t ∈ tasks.take i, t.status = TaskStatus.completed)) ∧
      (nextPendingIdx tasks = none ↔ ∀ t ∈ tasks, t.status = TaskStatus.completed) ∧
      (∀ k : Nat, ∀ t : PlanTask, (parsePlanFile content).tasks[k]? = some t →
        t.id = taskId (k + 1)) := by
  intro tasks i content
  refine ⟨?_, ?_, parse_ids content⟩
  · rw [nextPendingIdx, jsFindIndex_some_iff]
    constructor
    · rintro ⟨⟨a, ha, hpa⟩, hmin⟩
      refine ⟨⟨a, ha, by simpa [notCompleted, bne_iff_ne] using hpa⟩, ?_⟩
      intro t ht
      have := hmin t ht
      simpa [notCompleted, bne_eq_false_iff_eq] using this
    · rintro ⟨⟨a, ha, hpa⟩, hmin⟩
      refine ⟨⟨a, ha, by simpa [notCompleted, bne_iff_ne] using hpa⟩, ?_⟩
      intro t ht
      have := hmin t ht
      simp [notCompleted, bne_eq_false_iff_eq, this]
  · rw [nextPendingIdx, jsFindIndex_none_iff]
    constructor
    · intro h t ht
      have := h t ht
      simpa [notCompleted, bne_eq_false_iff_eq] using this
    · intro h t ht
      simp [notCompleted, bne_eq_false_iff_eq, h t ht]

/-- Witness for C2: on a plan whose first task is pre-checked, the selected
index is one (the second task), obtained by applying the characterization. -/
theorem nextPending_lowest_index_witness :
    nextPendingIdx (parsePlanFile ("- [x] a\n- [ ] b".toList)).tasks = some 1 :=
  (nextPending_lowest_index (parsePlanFile ("- [x] a\n- [ ] b".toList)).tasks 1 []).1.mpr
    (by refine ⟨⟨(parsePlanFile ("- [x] a\n- [ ] b".toList)).tasks.getD 1 default, ?_, ?_⟩, ?_⟩ <;> decide)

/-- A git environment in which every external command succeeds. -/
def envOk : GitEnv :=
  { isRepo := true, statusOut := "M x".toList, addOk := true, addErr := [],
    commitOk := true, commitErr := [] }

/-- Claim C4: parsing keeps rawContent equal to the input byte-for-byte, so
reserializing the parsed document with no status change writes exactly the
input back; and the completion write-back skips the plan write entirely when
the selected task is already completed, leaving the content unchanged. -/
theorem parse_reserialize_roundTrip :
    ∀ (content : Text) (env : GitEnv) (taskNum : Int) (shouldCommit : Bool),
      (parsePlanFile content).rawContent = content ∧
      (((parsePlanFile content).tasks.getD (taskNum - 1).toNat default).status =
          TaskStatus.completed →
        (markTaskCompleteAndCommit env (some content) taskNum shouldCommit).1 =
          some content) := by
  intro content env taskNum shouldCommit
  refine ⟨rfl, ?_⟩
  intro hstatus
  unfold markTaskCompleteAndCommit
  by_cases hr : taskNum < 1 ∨ taskNum > ((parsePlanFile content).tasks.length : Int)
  · simp only [if_pos hr]
  · simp only [if_neg hr, hstatus, if_pos]

/-- Witness for C4: a one-task plan whose task is already checked. -/
theorem parse_reserialize_roundTrip_witness :
    (markTaskCompleteAndCommit envOk (some ("- [x] a".toList)) 1 true).1 =
      some ("- [x] a".toList) :=
  (parse_reserialize_roundTrip ("- [x] a".toList) envOk 1 true).2 (by decide)

/-- Claim C9: completion is exact, case-sensitive string equality between
the extracted promise and the target — satisfied precisely when
extractPromise returns the target itself; a case-mismatched promise (done
against DONE) and a substring (one) do not satisfy; the exact phrase
does. -/
theorem promiseSatisfied_exact :
    (∀ candidate target : Text,
      promiseSatisfied candidate target = true ↔
        extractPromiseText candidate = some target) ∧
    promiseSatisfied ("<promise>done</promise>".toList) ("DONE".toList) = false ∧
    promiseSatisfied ("<promise>done</promise>".toList) ("one".toList) = false ∧
    promiseSatisfied ("<promise>done</promise>".toList) ("done".toList) = true := by
  refine ⟨?_, by decide, by decide, by decide⟩
  intro c t
  simp [promiseSatisfied]

/-- Claim C5: the completion check consults only the last five transcript
messages (dropping everything earlier never changes its result), walking
them in reverse recency order with the first satisfying part winning, and
it is satisfied exactly when some assistant message in that window has a
text part whose extracted promise equals the target; the earlier transcript
is never read. -/
theorem checkCompletion_window_only :
    ∀ (msgs : List Message) (target : Text),
      checkCompletionInSession msgs target =
        checkCompletionInSession (msgs.drop (msgs.length - 5)) target ∧
      (checkCompletionInSession msgs target = true ↔
        ∃ m ∈ msgs.drop (msgs.length - 5), m.role = "assistant".toList ∧
          ∃ p ∈ m.parts, p.isText = true ∧ extractPromiseText p.text = some target) := by
  intro msgs target
  constructor
  · have hlen : (msgs.drop (msgs.length - 5)).length - 5 = 0 := by
      rw [List.length_drop]; omega
    simp only [checkCompletionInSession, hlen, List.drop_zero]
  · simp only [checkCompletionInSession, List.any_eq_true]
    constructor
    · rintro ⟨m, hm, hf⟩
      rw [List.mem_reverse] at hm
      rw [Bool.and_eq_true, beq_iff_eq] at hf
      obtain ⟨hrole, hpart⟩ := hf
      rw [msgHasPromise, List.any_eq_true] at hpart
      obtain ⟨p, hp, hpp⟩ := hpart
      rw [Bool.and_eq_true] at hpp
      refine ⟨m, hm, hrole, p, hp, hpp.1, ?_⟩
      have h2 := hpp.2
      rw [promiseSatisfied, beq_iff_eq] at h2
      exact h2
    · rintro ⟨m, hm, hrole, p, hp, hpt, hpe⟩
      refine ⟨m, List.mem_reverse.mpr hm, ?_⟩
      rw [Bool.and_eq_true, beq_iff_eq]
      refine ⟨hrole, ?_⟩
      rw [msgHasPromise, List.any_eq_true]
      refine ⟨p, hp, ?_⟩
      rw [Bool.and_eq_true, promiseSatisfied, beq_iff_eq]
      exact ⟨hpt, hpe⟩

/-- The four-task plan of the max-iterations scenario (A pending,
B completed, C pending, D pending). -/
def planAbcd : Text := "# T\n- [ ] A\n- [x] B\n- [ ] C\n- [ ] D".toList

/-- The loop state of the max-iterations scenario: active loop mode,
iteration one, maxIterations one, current task one. -/
def stateAbcd : RalphState :=
  { active := true, iteration := 1, maxIterations := 1, completionPromise := none,
    prompt := [], sessionId := some ("s".toList), startedAt := [],
    planFile := some ("PLAN.md".toList), currentTaskId := some ("task-1".toList),
    mode := some Mode.loop, currentTaskNum := some 1 }

/-- Claim C1: on an idle signal in loop mode the handler first marks the
current task completed (attempting a commit), then re-parses the plan, and
only afterwards applies the max-iterations stop. With tasks A pending,
B completed, C pending, D pending and maxIterations one, one idle signal
rewrites the plan with A completed while C and D stay pending, deletes the
persisted state, performs no state write, reports the max-iterations stop,
and does not advance to the next task. -/
theorem loopIdle_abort_after_marking :
    (handleIdle envOk (some stateAbcd) none (some planAbcd) []).removed = true ∧
    (handleIdle envOk (some stateAbcd) none (some planAbcd) []).stateWrites = [] ∧
    (handleIdle envOk (some stateAbcd) none (some planAbcd) []).action =
      EventAction.maxIterReached ∧
    (handleIdle envOk (some stateAbcd) none (some planAbcd) []).planContent =
      some ("# T\n- [x] A\n- [x] B\n- [ ] C\n- [ ] D".toList) ∧
    ((parsePlanFile ("# T\n- [x] A\n- [x] B\n- [ ] C\n- [ ] D".toList)).tasks.map
        (fun t => t.status)) =
      [TaskStatus.completed, TaskStatus.completed, TaskStatus.pending,
        TaskStatus.pending] := by
  refine ⟨rfl, rfl, rfl, by decide, by decide⟩

/-- A minimal active legacy-mode state. -/
def activeStateFx : RalphState :=
  { active := true, iteration := 1, maxIterations := 0, completionPromise := none,
    prompt := "p".toList, sessionId := none, startedAt := [],
    planFile := none, currentTaskId := none, mode := none, currentTaskNum := none }

/-- Counterexample to claim C6 as stated: with an active LoopState persisted
but the plan file missing, the plan-based start fails with the
plan-not-found result rather than the already-active error, because the
plan checks run before the active check; no state write occurs on either
path. -/
theorem start_activeError_counterexample :
    activeStateFx.active = true ∧
    rwStart (some activeStateFx) none ("p".toList) 0 none [] =
      RwStartResult.planNotFound ∧
    RwStartResult.planNotFound ≠ RwStartResult.alreadyActive activeStateFx.iteration := by
  refine ⟨rfl, rfl, by decide⟩

/-- Claim C6 (amended): while an active LoopState exists, neither start
operation ever writes state — the persisted state stays byte-identical —
and neither starts; the already-active error is returned whenever the
operation's earlier checks pass (the direct start checks the prompt first;
the plan start checks plan existence, non-emptiness and the presence of a
pending task first, and a failing earlier check yields that check's error
instead, still without any write). -/
theorem start_whileActive_noWrite :
    ∀ (st : RalphState) (prompt : Text) (maxIt : Int) (cp sid : Option Text)
      (ts : Text) (planContent : Option Text) (pf : Text) (maxIt2 : Int)
      (sid2 : Option Text) (ts2 : Text),
      st.active = true →
      (rwLoopWrites (rwLoop (some st) prompt maxIt cp sid ts) = [] ∧
       rwStartWrites (rwStart (some st) planContent pf maxIt2 sid2 ts2) = [] ∧
       ((trimText prompt).isEmpty = false →
         rwLoop (some st) prompt maxIt cp sid ts =
           RwLoopResult.alreadyActive st.iteration) ∧
       (∀ c, planContent = some c → (parsePlanFile c).tasks.length ≠ 0 →
         ((parsePlanFile c).tasks.filter notCompleted).length ≠ 0 →
         rwStart (some st) planContent pf maxIt2 sid2 ts2 =
           RwStartResult.alreadyActive st.iteration)) := by
  intro st prompt maxIt cp sid ts planContent pf maxIt2 sid2 ts2 hact
  refine ⟨?_, ?_, ?_, ?_⟩
  · by_cases hp : (trimText prompt).isEmpty
    · simp [rwLoop, rwLoopWrites, hp]
    · simp [rwLoop, rwLoopWrites, hp, hact]
  · cases planContent with
    | none => rfl
    | some c =>
      by_cases h1 : (parsePlanFile c).tasks.length = 0
      · simp [rwStart, rwStartWrites, h1]
      · by_cases h2 : ((parsePlanFile c).tasks.filter notCompleted).length = 0
        · simp [rwStart, rwStartWrites, h1, h2]
        · simp [rwStart, rwStartWrites, h1, h2, hact]
  · intro hp
    simp [rwLoop, hp, hact]
  · intro c hc h1 h2
    subst hc
    simp [rwStart, h1, h2, hact]

/-- Witness for C6 (amended) at a concrete active state and a concrete
one-task pending plan. -/
theorem start_whileActive_noWrite_witness :
    rwStart (some activeStateFx) (some ("- [ ] a".toList)) ("p".toList) 0 none [] =
      RwStartResult.alreadyActive activeStateFx.iteration :=
  ((start_whileActive_noWrite activeStateFx ("x".toList) 0 none none []
      (some ("- [ ] a".toList)) ("p".toList) 0 none []) rfl).2.2.2
    ("- [ ] a".toList) rfl (by decide) (by decide)

/-- Claim C7: the commit preconditions are checked in order — not a
repository first (that failure wins regardless of the status output), then
no pending changes — each failing as a returned non-fatal result carrying a
reason message; the plan write-back of the completion bookkeeping is
identical whatever the git environment and whether a commit is attempted at
all (it happens before and independently of the commit), and a valid mark
always returns the ok outcome carrying the possibly-failed commit result,
so a failed or skipped commit never blocks the task from being marked
completed or the loop from proceeding. -/
theorem commit_nonFatal_ordered :
    ∀ (env env2 : GitEnv) (title : Text) (n : Int) (content : Option Text) (num : Int),
      (env.isRepo = false →
        createGitCommit env title n =
          { success := false, message := "Not a git repository".toList }) ∧
      (env.isRepo = true → (trimText env.statusOut).isEmpty = true →
        createGitCommit env title n =
          { success := false, message := "No changes to commit".toList }) ∧
      ((markTaskCompleteAndCommit env content num true).1 =
        (markTaskCompleteAndCommit env content num false).1) ∧
      ((markTaskCompleteAndCommit env content num true).1 =
        (markTaskCompleteAndCommit env2 content num true).1) ∧
      (∀ c, content = some c →
        ¬(num < 1 ∨ num > ((parsePlanFile c).tasks.length : Int)) →
        ∃ t2 cr, (markTaskCompleteAndCommit env content num true).2 =
          MarkOutcome.ok t2 (some cr)) := by
  intro env env2 title n content num
  refine ⟨?_, ?_, ?_, ?_, ?_⟩
  · intro h
    simp [createGitCommit, h]
  · intro h1 h2
    simp [createGitCommit, h1, h2]
  · cases content with
    | none => rfl
    | some c =>
      by_cases hr : num < 1 ∨ num > ((parsePlanFile c).tasks.length : Int)
      · simp [markTaskCompleteAndCommit, hr]
      · simp [markTaskCompleteAndCommit, hr]
  · cases content with
    | none => rfl
    | some c =>
      by_cases hr : num < 1 ∨ num > ((parsePlanFile c).tasks.length : Int)
      · simp [markTaskCompleteAndCommit, hr]
      · simp [markTaskCompleteAndCommit, hr]
  · intro c hc hr
    subst hc
    refine ⟨((parsePlanFile c).tasks.getD (num - 1).toNat default).title,
      createGitCommit env ((parsePlanFile c).tasks.getD (num - 1).toNat default).title num,
      ?_⟩
    simp [markTaskCompleteAndCommit, hr]

/-- Witness for C7: the non-repository precondition at a concrete call. -/
theorem commit_nonFatal_ordered_witness :
    createGitCommit
        { isRepo := false, statusOut := [], addOk := true, addErr := [],
          commitOk := true, commitErr := [] } ("t".toList) 1 =
      { success := false, message := "Not a git repository".toList } :=
  (commit_nonFatal_ordered
    { isRepo := false, statusOut := [], addOk := true, addErr := [],
      commitOk := true, commitErr := [] } envOk ("t".toList) 1 none 1).1 rfl

theorem singleTaskBranch_writes_eq (env : GitEnv) (st : RalphState)
    (sidWrites : List RalphState) (pc : Option Text) :
    (singleTaskBranch env st sidWrites pc).stateWrites = sidWrites := by
  unfold singleTaskBranch
  split <;> rfl

theorem loopBranch_writes_mem (env : GitEnv) (st : RalphState)
    (sidWrites : List RalphState) (pc : Option Text) (msgs : List Message) :
    ∀ s ∈ (loopBranch env st sidWrites pc msgs).stateWrites,
      s ∈ sidWrites ∨ s.active = st.active := by
  intro s hs
  unfold loopBranch at hs
  split at hs
  · exact Or.inl hs
  · split at hs
    · exact Or.inl hs
    · split at hs
      · exact Or.inl hs
      · split at hs
        · exact Or.inl hs
        · rcases List.mem_append.mp hs with h | h
          · exact Or.inl h
          · simp only [List.mem_singleton] at h
            subst h
            exact Or.inr rfl

theorem legacyBranch_writes_mem (st : RalphState) (sidWrites : List RalphState)
    (pc : Option Text) (msgs : List Message) :
    ∀ s ∈ (legacyBranch st sidWrites pc msgs).stateWrites,
      s ∈ sidWrites ∨ s.active = st.active := by
  intro s hs
  unfold legacyBranch at hs
  split at hs
  · exact Or.inl hs
  · split at hs
    · exact Or.inl hs
    · rcases List.mem_append.mp hs with h | h
      · exact Or.inl h
      · simp only [List.mem_singleton] at h
        subst h
        exact Or.inr rfl

theorem dispatch_writes_mem (env : GitEnv) (st : RalphState)
    (sidWrites : List RalphState) (pc : Option Text) (msgs : List Message) :
    ∀ s ∈ (handleIdleDispatch env st sidWrites pc msgs).stateWrites,
      s ∈ sidWrites ∨ s.active = st.active := by
  intro s hs
  unfold handleIdleDispatch at hs
  split at hs
  · rw [singleTaskBranch_writes_eq] at hs
    exact Or.inl hs
  · split at hs
    · exact loopBranch_writes_mem env st sidWrites pc msgs s hs
    · exact legacyBranch_writes_mem st sidWrites pc msgs s hs

/-- Claim C10: every LoopState any operation ever writes to the state file
— the direct loop start, the plan loop start, the single-task start, and
the idle handler's session-id and iteration updates — has active true; no
operation ever persists an inactive state, so a readable persisted state
coincides with an active loop. -/
theorem allWrites_active :
    ∀ (existing : Option RalphState) (prompt : Text) (maxIt : Int)
      (cp sid : Option Text) (ts : Text) (planContent : Option Text) (pf : Text)
      (argTask : Text) (env : GitEnv) (stOpt : Option RalphState)
      (evSid : Option Text) (msgs : List Message),
      (∀ s ∈ rwLoopWrites (rwLoop existing prompt maxIt cp sid ts), s.active = true) ∧
      (∀ s ∈ rwStartWrites (rwStart existing planContent pf maxIt sid ts),
        s.active = true) ∧
      (∀ s ∈ rwTaskWrites (rwTask existing planContent pf argTask sid ts),
        s.active = true) ∧
      (∀ s ∈ (handleIdle env stOpt evSid planContent msgs).stateWrites,
        s.active = true) := by
  intro existing prompt maxIt cp sid ts planContent pf argTask env stOpt evSid msgs
  refine ⟨?_, ?_, ?_, ?_⟩
  · intro s hs
    unfold rwLoop at hs
    split at hs
    · simp [rwLoopWrites] at hs
    · split at hs
      · split at hs
        · simp [rwLoopWrites] at hs
        · simp [rwLoopWrites] at hs
          subst hs
          rfl
      · simp [rwLoopWrites] at hs
        subst hs
        rfl
  · intro s hs
    unfold rwStart at hs
    split at hs
    · simp [rwStartWrites] at hs
    · split at hs
      · simp [rwStartWrites] at hs
      · split at hs
        · simp [rwStartWrites] at hs
        · split at hs
          · split at hs
            · simp [rwStartWrites] at hs
            · simp [rwStartWrites] at hs
              subst hs
              rfl
          · simp [rwStartWrites] at hs
            subst hs
            rfl
  · intro s hs
    unfold rwTask at hs
    split at hs
    · simp [rwTaskWrites] at hs
    · split at hs
      · simp [rwTaskWrites] at hs
      · split at hs
        · simp [rwTaskWrites] at hs
        · split at hs
          · simp [rwTaskWrites] at hs
          · split at hs
            · split at hs
              · simp [rwTaskWrites] at hs
              · simp [rwTaskWrites] at hs
                subst hs
                rfl
            · simp [rwTaskWrites] at hs
              subst hs
              rfl
  · intro s hs
    unfold handleIdle at hs
    split at hs
    · simp at hs
    · rename_i st0
      split at hs
      · simp at hs
      · rename_i hact
        split at hs
        · simp at hs
        · have hval : st0.active = true := by
            revert hact
            cases st0.active <;> simp
          split at hs
          · rcases dispatch_writes_mem env _ _ planContent msgs s hs with h | h
            · simp only [List.mem_singleton] at h
              subst h
              exact hval
            · exact h.trans hval
          · rcases dispatch_writes_mem env _ _ planContent msgs s hs with h | h
            · simp at h
            · exact h.trans hval

/-- Witness for C10: the concrete state persisted by a concrete direct loop
start is active. -/
theorem allWrites_active_witness :
    (rwLoopState ("p".toList) 2 none none []).active = true :=
  (allWrites_active none ("p".toList) 2 none none [] none [] [] envOk none none
      []).1 (rwLoopState ("p".toList) 2 none none []) (by decide)

theorem beginsAt_drop (pat t : Text) (a k : Nat) :
    beginsAt pat (t.drop a) k ↔ beginsAt pat t (a + k) := by
  unfold beginsAt
  rw [List.drop_drop]

instance (pat t : Text) (i : Nat) : Decidable (beginsAt pat t i) := by
  unfold beginsAt
  infer_instance

theorem extractPromiseText_none_iff (t : Text) :
    extractPromiseText t = none ↔
      ¬ ∃ pre mid post : Text, t = pre ++ openTag ++ mid ++ closeTag ++ post := by
  unfold extractPromiseText
  cases ho : findSub openTag t with
  | none =>
    have hno := (findSub_none_iff openTag t).mp ho
    constructor
    · rintro _ ⟨pre, mid, post, hdec⟩
      have hb : beginsAt openTag t pre.length :=
        ((beginsAt_decomp openTag t pre.length).mpr
          ⟨pre, mid ++ closeTag ++ post, by rw [hdec]; simp [List.append_assoc], rfl⟩).1
      exact hno pre.length hb
    · intro _; rfl
  | some i =>
    obtain ⟨hbi, hmin⟩ := (findSub_some_iff openTag t i).mp ho
    cases hc : findSub closeTag (t.drop (i + openTag.length)) with
    | none =>
      have hnc := (findSub_none_iff closeTag (t.drop (i + openTag.length))).mp hc
      constructor
      · rintro _ ⟨pre, mid, post, hdec⟩
        have hile : i ≤ pre.length := by
          by_contra hgt
          exact hmin pre.length (by omega)
            (((beginsAt_decomp openTag t pre.length).mpr
              ⟨pre, mid ++ closeTag ++ post, by rw [hdec]; simp [List.append_assoc],
                rfl⟩).1)
        have hbc : beginsAt closeTag t (pre.length + openTag.length + mid.length) :=
          ((beginsAt_decomp closeTag t (pre.length + openTag.length + mid.length)).mpr
            ⟨pre ++ openTag ++ mid, post, by simp [hdec, List.append_assoc],
              by simp [List.length_append, Nat.add_assoc]⟩).1
        have hk : beginsAt closeTag (t.drop (i + openTag.length))
            (pre.length + openTag.length + mid.length - (i + openTag.length)) := by
          rw [beginsAt_drop]
          have : i + openTag.length +
              (pre.length + openTag.length + mid.length - (i + openTag.length)) =
              pre.length + openTag.length + mid.length := by omega
          rw [this]
          exact hbc
        exact hnc _ hk
      · intro _
        simp only [hc]
    | some j =>
      constructor
      · intro h
        simp only [hc] at h
        exact Option.noConfusion h
      · intro hne
        exfalso
        apply hne
        have hit : i ≤ t.length :=
          beginsAt_le_length openTag t i hbi (by decide)
        obtain ⟨pre, rest, hdec1, hlen1⟩ := (beginsAt_decomp openTag t i).mp ⟨hbi, hit⟩
        obtain ⟨hbj, _⟩ :=
          (findSub_some_iff closeTag (t.drop (i + openTag.length)) j).mp hc
        have hrest : t.drop (i + openTag.length) = rest := by
          rw [hdec1, ← hlen1,
            show pre.length + openTag.length = (pre ++ openTag).length by
              simp [List.length_append],
            show pre ++ openTag ++ rest = (pre ++ openTag) ++ rest by simp,
            List.drop_left]
        rw [hrest] at hbj
        have hjr : j ≤ rest.length :=
          beginsAt_le_length closeTag rest j hbj (by decide)
        obtain ⟨mid, post, hdec2, _⟩ := (beginsAt_decomp closeTag rest j).mp ⟨hbj, hjr⟩
        exact ⟨pre, mid, post, by rw [hdec1, hdec2]; simp [List.append_assoc]⟩

theorem extractPromiseText_first (pre mid post : Text)
    (h1 : ∀ j, j < pre.length →
      ¬ beginsAt openTag (pre ++ openTag ++ mid ++ closeTag ++ post) j)
    (h2 : ∀ j, j < mid.length → ¬ beginsAt closeTag (mid ++ closeTag ++ post) j) :
    extractPromiseText (pre ++ openTag ++ mid ++ closeTag ++ post) =
      some (collapseWs (trimText mid)) := by
  have hopen : findSub openTag (pre ++ openTag ++ mid ++ closeTag ++ post) =
      some pre.length :=
    (findSub_some_iff _ _ _).mpr
      ⟨((beginsAt_decomp openTag _ pre.length).mpr
          ⟨pre, mid ++ closeTag ++ post, by simp [List.append_assoc], rfl⟩).1,
        fun j hj => h1 j hj⟩
  have hdrop : (pre ++ openTag ++ mid ++ closeTag ++ post).drop
      (pre.length + openTag.length) = mid ++ closeTag ++ post := by
    rw [show pre.length + openTag.length = (pre ++ openTag).length by
          simp [List.length_append],
      show pre ++ openTag ++ mid ++ closeTag ++ post =
          (pre ++ openTag) ++ (mid ++ closeTag ++ post) by simp [List.append_assoc],
      List.drop_left]
  have hclose : findSub closeTag (mid ++ closeTag ++ post) = some mid.length :=
    (findSub_some_iff _ _ _).mpr
      ⟨((beginsAt_decomp closeTag _ mid.length).mpr
          ⟨mid, post, by simp [List.append_assoc], rfl⟩).1,
        fun j hj => h2 j hj⟩
  simp only [extractPromiseText, hopen, hdrop, hclose]
  rw [show mid ++ closeTag ++ post = mid ++ (closeTag ++ post) by simp [List.append_assoc],
    List.take_left]

/-- Claim C8: extractPromise returns the payload of the first tag-delimited
occurrence, matched non-greedily (the payload ends at the first closing tag
and may span newlines), trimmed with internal whitespace runs collapsed to
single spaces; it returns none exactly when no delimited payload exists;
and the two cited examples evaluate as specified. -/
theorem extractPromise_spec :
    ∀ (t pre mid post : Text),
      (extractPromiseText t = none ↔
        ¬ ∃ pre2 mid2 post2 : Text, t = pre2 ++ openTag ++ mid2 ++ closeTag ++ post2) ∧
      ((∀ j, j < pre.length →
          ¬ beginsAt openTag (pre ++ openTag ++ mid ++ closeTag ++ post) j) →
       (∀ j, j < mid.length → ¬ beginsAt closeTag (mid ++ closeTag ++ post) j) →
        extractPromiseText (pre ++ openTag ++ mid ++ closeTag ++ post) =
          some (collapseWs (trimText mid))) ∧
      extractPromiseText ("<promise>  A   B </promise>".toList) = some ("A B".toList) ∧
      extractPromiseText ("no tags".toList) = none :=
  fun t pre mid post =>
    ⟨extractPromiseText_none_iff t, extractPromiseText_first pre mid post,
      by decide, by decide⟩

/-- Witness for C8: the first-occurrence characterization applied at a
concrete surrounded payload. -/
theorem extractPromise_spec_witness :
    extractPromiseText
        (("x".toList) ++ openTag ++ ("  hi  there ".toList) ++ closeTag ++ ("y".toList)) =
      some (collapseWs (trimText ("  hi  there ".toList))) :=
  ((extractPromise_spec [] ("x".toList) ("  hi  there ".toList) ("y".toList)).2.1)
    (by decide) (by decide)

theorem updateTaskStatus_of_none (content tid : Text) (tasks : List PlanTask)
    (newStatus : NewStatus) (h : tasks.find? (fun t => t.id == tid) = none) :
    updateTaskStatus content tid tasks newStatus = content := by
  unfold updateTaskStatus
  rw [h]

theorem updateTaskStatus_of_some (content tid : Text) (tasks : List PlanTask)
    (newStatus : NewStatus) (task : PlanTask)
    (h : tasks.find? (fun t => t.id == tid) = some task) :
    updateTaskStatus content tid tasks newStatus =
      joinLines ((splitLines content).set (task.lineNumber - 1)
        (boxUpdate newStatus ((splitLines content).getD (task.lineNumber - 1) []))) := by
  unfold updateTaskStatus
  rw [h]

theorem replaceFirstBox_no_newline (isMark : Char → Bool) (rep : Text)
    (hrep : '\n' ∉ rep) : ∀ l : Text, '\n' ∉ l → '\n' ∉ replaceFirstBox isMark rep l := by
  intro l
  induction l with
  | nil => intro _; simp [replaceFirstBox]
  | cons c cs ih =>
    intro hl
    have hc : c ≠ '\n' := fun h => hl (by simp [h])
    have hcs : '\n' ∉ cs := fun h => hl (by simp [h])
    unfold replaceFirstBox
    split
    · split
      · split
        · intro hmem
          rcases List.mem_append.mp hmem with h | h
          · exact hrep h
          · exact hcs (by simp [h])
        · intro hmem
          rcases List.mem_cons.mp hmem with h | h
          · exact hc h.symm
          · exact ih hcs h
      · intro hmem
        rcases List.mem_cons.mp hmem with h | h
        · exact hc h.symm
        · exact ih hcs h
    · intro hmem
      rcases List.mem_cons.mp hmem with h | h
      · exact hc h.symm
      · exact ih hcs h

theorem boxUpdate_no_newline (newStatus : NewStatus) (l : Text) (hl : '\n' ∉ l) :
    '\n' ∉ boxUpdate newStatus l := by
  cases newStatus with
  | completed => exact replaceFirstBox_no_newline _ _ (by decide) l hl
  | pending => exact replaceFirstBox_no_newline _ _ (by decide) l hl

theorem splitLines_getD_no_newline (content : Text) (idx : Nat) :
    '\n' ∉ (splitLines content).getD idx [] := by
  rw [List.getD_eq_getElem?_getD]
  cases h : (splitLines content)[idx]? with
  | none => simp
  | some l0 =>
    simp only [Option.getD_some]
    exact splitLines_no_newline content l0 (List.getElem?_mem h)

theorem splitLines_set (content : Text) (idx : Nat) (newLine : Text)
    (hnl : '\n' ∉ newLine) :
    splitLines (joinLines ((splitLines content).set idx newLine)) =
      (splitLines content).set idx newLine := by
  apply splitLines_joinLines
  · intro h
    have hlen := congrArg List.length h
    rw [List.length_set] at hlen
    exact splitLines_ne_nil content (List.length_eq_zero.mp (by simpa using hlen))
  · intro l hl
    rcases List.mem_or_eq_of_mem_set hl with h | h
    · exact splitLines_no_newline content l h
    · subst h
      exact hnl

theorem replaceFirstBox_decomp (isMark : Char → Bool) (rep : Text) (pre rest : Text)
    (m : Char) (hpre : ∀ c ∈ pre, c ≠ '[') (hm : isMark m = true) :
    replaceFirstBox isMark rep (pre ++ '[' :: m :: ']' :: rest) = pre ++ rep ++ rest := by
  induction pre with
  | nil =>
    simp only [List.nil_append]
    unfold replaceFirstBox
    simp [hm]
  | cons c cs ih =>
    have hc : c ≠ '[' := hpre c (by simp)
    simp only [List.cons_append]
    unfold replaceFirstBox
    simp only [if_neg hc]
    rw [ih (fun d hd => hpre d (by simp [hd]))]

theorem isJsSpace_ne_lbracket (c : Char) (h : isJsSpace c = true) : c ≠ '[' := by
  intro hc
  subst hc
  exact absurd h (by decide)

theorem isDigit_ne_lbracket (c : Char) (h : c.isDigit = true) : c ≠ '[' := by
  intro hc
  subst hc
  exact absurd h (by decide)

theorem matchTaskBox_decomp (r1 : Text) (m : Char) (ti : Text)
    (h : matchTaskBox r1 = some (m, ti)) :
    ∃ pre rest, r1 = pre ++ '[' :: m :: ']' :: rest ∧ (∀ c ∈ pre, c ≠ '[') ∧
      (m = ' ' ∨ m = 'x' ∨ m = 'X') := by
  unfold matchTaskBox at h
  split at h
  · rename_i m' rest heq
    split at h
    · rename_i hm'
      rw [Option.map_eq_some'] at h
      obtain ⟨t0, _, ht0⟩ := h
      injection ht0 with h1 h2
      subst h1
      refine ⟨r1.takeWhile isJsSpace, rest, ?_, ?_, ?_⟩
      · conv_lhs => rw [← List.takeWhile_append_dropWhile isJsSpace r1]
        rw [heq]
      · intro c hc
        exact isJsSpace_ne_lbracket c (List.mem_takeWhile_imp hc)
      · simpa [or_assoc] using hm'
    · exact Option.noConfusion h
  · exact Option.noConfusion h

theorem matchTaskCore_decomp (r : Text) (m : Char) (ti : Text)
    (h : matchTaskCore r = some (m, ti)) :
    ∃ pre rest, r = pre ++ '[' :: m :: ']' :: rest ∧ (∀ c ∈ pre, c ≠ '[') ∧
      (m = ' ' ∨ m = 'x' ∨ m = 'X') := by
  unfold matchTaskCore at h
  obtain ⟨pre, rest, hdec, hpre, hm⟩ := matchTaskBox_decomp (stripDash r) m ti h
  cases r with
  | nil =>
    refine ⟨pre, rest, ?_, hpre, hm⟩
    simp only [stripDash] at hdec
    exact hdec
  | cons c rr =>
    by_cases hc : c = '-'
    · subst hc
      have hsd : stripDash ('-' :: rr) = rr := by simp [stripDash]
      rw [hsd] at hdec
      refine ⟨'-' :: pre, rest, by simp [hdec], ?_, hm⟩
      intro d hd
      rcases List.mem_cons.mp hd with h' | h'
      · subst h'; decide
      · exact hpre d h'
    · have hsd : stripDash (c :: rr) = c :: rr := by simp [stripDash, hc]
      rw [hsd] at hdec
      exact ⟨pre, rest, hdec, hpre, hm⟩

theorem matchTaskNum_decomp (line : Text) (m : Char) (ti : Text)
    (h : matchTaskNum line = some (m, ti)) :
    ∃ pre rest, line = pre ++ '[' :: m :: ']' :: rest ∧ (∀ c ∈ pre, c ≠ '[') ∧
      (m = ' ' ∨ m = 'x' ∨ m = 'X') := by
  unfold matchTaskNum at h
  split at h
  · exact Option.noConfusion h
  · split at h
    · rename_i r2 heq2
      split at h
      · exact Option.noConfusion h
      · obtain ⟨pre3, rest, hdec, hpre3, hm⟩ :=
          matchTaskCore_decomp (r2.dropWhile isJsSpace) m ti h
        refine ⟨line.takeWhile (fun c => c.isDigit) ++
            '.' :: ((r2.takeWhile isJsSpace) ++ pre3), rest, ?_, ?_, hm⟩
        · conv_lhs => rw [← List.takeWhile_append_dropWhile (fun c => c.isDigit) line]
          rw [heq2]
          conv_lhs => rw [← List.takeWhile_append_dropWhile isJsSpace r2]
          rw [hdec]
          simp [List.append_assoc]
        · intro c hc
          simp only [List.mem_append, List.mem_cons] at hc
          rcases hc with h1 | h1 | h1
          · exact isDigit_ne_lbracket c (List.mem_takeWhile_imp h1)
          · subst h1; decide
          · rcases h1 with h2 | h2
            · exact isJsSpace_ne_lbracket c (List.mem_takeWhile_imp h2)
            · exact hpre3 c h2
    · exact Option.noConfusion h

theorem matchTask_decomp (line : Text) (m : Char) (ti : Text)
    (h : matchTask line = some (m, ti)) :
    ∃ pre rest, line = pre ++ '[' :: m :: ']' :: rest ∧ (∀ c ∈ pre, c ≠ '[') ∧
      (m = ' ' ∨ m = 'x' ∨ m = 'X') := by
  unfold matchTask at h
  split at h
  · rename_i r heq
    injection h with h
    subst h
    exact matchTaskNum_decomp line m ti heq
  · exact matchTaskCore_decomp line m ti h

/-- The shape invariant the parser guarantees for each produced task's
source line: the line splits into a bracket-free prefix, the checkbox with
the task's marker, and a remainder, the marker agreeing with the parsed
status. -/
def taskLineOk (line : Text) (st : TaskStatus) : Prop :=
  ∃ pre m rest, line = pre ++ '[' :: m :: ']' :: rest ∧ (∀ c ∈ pre, c ≠ '[') ∧
    ((st = TaskStatus.completed ∧ (m = 'x' ∨ m = 'X')) ∨
     (st = TaskStatus.pending ∧ m = ' '))

/-- The parser-loop invariant: every finished task and the open task point
at a line (through the lookup L by 1-based number) of checkbox shape. -/
def tasksLinesOk (L : Nat → Text) (st : PState) : Prop :=
  (∀ t ∈ st.tasks, taskLineOk (L t.lineNumber) t.status) ∧
  (∀ t : PlanTask, st.currentTask = some t → taskLineOk (L t.lineNumber) t.status)

theorem flushTask_linesOk (L : Nat → Text) (st : PState) (h : tasksLinesOk L st) :
    ∀ t ∈ flushTask st, taskLineOk (L t.lineNumber) t.status := by
  intro t ht
  cases hct : st.currentTask with
  | none =>
    rw [flushTask_of_none st hct] at ht
    exact h.1 t ht
  | some ct =>
    rw [flushTask_of_some st ct hct] at ht
    rcases List.mem_append.mp ht with h' | h'
    · exact h.1 t h'
    · simp only [List.mem_singleton] at h'
      subst h'
      exact h.2 ct hct

theorem stepLine_linesOk (L : Nat → Text) (st : PState) (l : Text) (n : Nat)
    (hline : L n = l) (h : tasksLinesOk L st) : tasksLinesOk L (stepLine st l n) := by
  unfold stepLine
  split
  · exact h
  · split
    · exact h
    · split
      · exact h
      · split
        · exact h
        · split
          · exact h
          · split
            · rename_i mt heq
              constructor
              · exact fun t ht => flushTask_linesOk L st h t ht
              · intro t ht
                simp only [Option.some.injEq] at ht
                subst ht
                obtain ⟨pre, rest, hdec, hpre, hm⟩ :=
                  matchTask_decomp l mt.1 mt.2 (by rw [heq])
                refine ⟨pre, mt.1, rest, by rw [hline]; exact hdec, hpre, ?_⟩
                rcases hm with h' | h' | h'
                · right
                  refine ⟨?_, h'⟩
                  show (if mt.1.toLower = 'x' then TaskStatus.completed
                    else TaskStatus.pending) = TaskStatus.pending
                  rw [h']
                  decide
                · left
                  refine ⟨?_, Or.inl h'⟩
                  show (if mt.1.toLower = 'x' then TaskStatus.completed
                    else TaskStatus.pending) = TaskStatus.completed
                  rw [h']
                  decide
                · left
                  refine ⟨?_, Or.inr h'⟩
                  show (if mt.1.toLower = 'x' then TaskStatus.completed
                    else TaskStatus.pending) = TaskStatus.completed
                  rw [h']
                  decide
            · split
              · exact ⟨h.1, fun t ht => h.2 t ht⟩
              · exact h

theorem parseLines_linesOk (L : Nat → Text) :
    ∀ (ls : List Text) (st : PState) (n : Nat),
      (∀ i : Nat, ∀ hi : i < ls.length, L (n + i) = ls[i]) →
      tasksLinesOk L st → tasksLinesOk L (parseLines st ls n) := by
  intro ls
  induction ls with
  | nil => intro st n _ h; exact h
  | cons l ls ih =>
    intro st n hL h
    have h0 : L n = l := by simpa using hL 0 (by simp)
    refine ih (stepLine st l n) (n + 1) ?_ (stepLine_linesOk L st l n h0 h)
    intro i hi
    have := hL (i + 1) (by simpa using Nat.succ_lt_succ hi)
    rw [show n + 1 + i = n + (i + 1) by omega]
    simpa using this

theorem parse_taskLines (content : Text) :
    ∀ t ∈ (parsePlanFile content).tasks,
      taskLineOk ((splitLines content).getD (t.lineNumber - 1) []) t.status := by
  intro t ht
  have hL : ∀ i : Nat, ∀ hi : i < (splitLines content).length,
      (splitLines content).getD (1 + i - 1) [] = (splitLines content)[i] := by
    intro i hi
    rw [show 1 + i - 1 = i by omega, List.getD_eq_getElem?_getD,
      List.getElem?_eq_getElem hi]
    rfl
  have h0 : tasksLinesOk (fun k => (splitLines content).getD (k - 1) []) initPState := by
    constructor
    · intro t ht; simp [initPState] at ht
    · intro t ht; simp [initPState] at ht
  have hinv := parseLines_linesOk (fun k => (splitLines content).getD (k - 1) [])
    (splitLines content) initPState 1 hL h0
  exact flushTask_linesOk _ _ hinv t ht

/-- The decoy plan of the C3 counterexample: one task, already completed,
with a pending-looking bracket inside its title text. -/
def decoyContent : Text := "- [x] a [ ] b".toList

/-- Counterexample to claim C3 as stated: on the single-line plan whose
only task is already completed and whose title text contains a decoy
pending bracket, setting that task to completed may change at most the
checkbox bracket (which shows x already, so nothing) — yet the code rewrites
the decoy bracket inside the title text: the output differs from the input
while the first seven bytes, which contain the entire checkbox, are
untouched. -/
theorem updateTaskStatus_counterexample :
    ((parsePlanFile decoyContent).tasks.map (fun t => t.status)) =
      [TaskStatus.completed] ∧
    updateTaskStatus decoyContent ("task-1".toList) (parsePlanFile decoyContent).tasks
      NewStatus.completed = "- [x] a [x] b".toList ∧
    "- [x] a [x] b".toList ≠ decoyContent ∧
    (updateTaskStatus decoyContent ("task-1".toList) (parsePlanFile decoyContent).tasks
      NewStatus.completed).take 7 = decoyContent.take 7 := by
  refine ⟨by decide, by decide, by decide, by decide⟩

/-- Claim C3 (amended): for every input text, task list produced by parsing
it and task id, updateTaskStatus leaves every line other than the found
task's sourceLine byte-identical, and returns the input unchanged when the
id is absent; whenever the new status differs from the task's parsed status
(the only way callers invoke it) it rewrites exactly the task's checkbox
bracket — the line is a bracket-free prefix, the checkbox, and a remainder,
and only the three checkbox bytes change. When the task already carries the
requested status, the rewrite instead hits the first matching bracket
anywhere on that line (see the counterexample), still touching no other
line. -/
theorem updateTaskStatus_frame :
    ∀ (content tid : Text) (newStatus : NewStatus) (task : PlanTask),
      ((parsePlanFile content).tasks.find? (fun t => t.id == tid) = none →
        updateTaskStatus content tid (parsePlanFile content).tasks newStatus = content) ∧
      ((parsePlanFile content).tasks.find? (fun t => t.id == tid) = some task →
        ((∀ j, j ≠ task.lineNumber - 1 →
          (splitLines (updateTaskStatus content tid (parsePlanFile content).tasks
            newStatus))[j]? = (splitLines content)[j]?) ∧
        (task.status = TaskStatus.pending → newStatus = NewStatus.completed →
          ∃ pre rest,
            (splitLines content).getD (task.lineNumber - 1) [] =
              pre ++ '[' :: ' ' :: ']' :: rest ∧
            (∀ c ∈ pre, c ≠ '[') ∧
            splitLines (updateTaskStatus content tid (parsePlanFile content).tasks
              newStatus) =
              (splitLines content).set (task.lineNumber - 1)
                (pre ++ "[x]".toList ++ rest)) ∧
        (task.status = TaskStatus.completed → newStatus = NewStatus.pending →
          ∃ m pre rest, (m = 'x' ∨ m = 'X') ∧
            (splitLines content).getD (task.lineNumber - 1) [] =
              pre ++ '[' :: m :: ']' :: rest ∧
            (∀ c ∈ pre, c ≠ '[') ∧
            splitLines (updateTaskStatus content tid (parsePlanFile content).tasks
              newStatus) =
              (splitLines content).set (task.lineNumber - 1)
                (pre ++ "[ ]".toList ++ rest)))) := by
  intro content tid newStatus task
  constructor
  · exact updateTaskStatus_of_none content tid _ newStatus
  · intro hfind
    have hupd := updateTaskStatus_of_some content tid _ newStatus task hfind
    have hsplit : splitLines (updateTaskStatus content tid
        (parsePlanFile content).tasks newStatus) =
        (splitLines content).set (task.lineNumber - 1)
          (boxUpdate newStatus ((splitLines content).getD (task.lineNumber - 1) [])) := by
      rw [hupd]
      exact splitLines_set content _ _
        (boxUpdate_no_newline newStatus _ (splitLines_getD_no_newline content _))
    have hok := parse_taskLines content task (List.mem_of_find?_eq_some hfind)
    refine ⟨?_, ?_, ?_⟩
    · intro j hj
      rw [hsplit]
      exact List.getElem?_set_ne (Ne.symm hj)
    · intro hstatus hnew
      obtain ⟨pre, mm, rest, hdec, hpre, hmk⟩ := hok
      have hmm : mm = ' ' := by
        rcases hmk with ⟨hc, _⟩ | ⟨_, hsp⟩
        · rw [hstatus] at hc
          exact absurd hc (by decide)
        · exact hsp
      subst hmm
      subst hnew
      refine ⟨pre, rest, hdec, hpre, ?_⟩
      rw [hsplit]
      congr 1
      rw [hdec]
      exact replaceFirstBox_decomp pendingBoxMark _ pre rest ' ' hpre (by decide)
    · intro hstatus hnew
      obtain ⟨pre, mm, rest, hdec, hpre, hmk⟩ := hok
      have hmm : mm = 'x' ∨ mm = 'X' := by
        rcases hmk with ⟨_, hx⟩ | ⟨hp, _⟩
        · exact hx
        · rw [hstatus] at hp
          exact absurd hp (by decide)
      subst hnew
      refine ⟨mm, pre, rest, hmm, hdec, hpre, ?_⟩
      rw [hsplit]
      congr 1
      rw [hdec]
      have : completedBoxMark mm = true := by
        rcases hmm with h | h <;> simp [completedBoxMark, h]
      exact replaceFirstBox_decomp completedBoxMark _ pre rest mm hpre this

/-- Witness for C3 (amended): a two-line plan with a pending first task;
completing task one leaves the second line untouched and rewrites exactly
the first line's checkbox. -/
theorem updateTaskStatus_frame_witness :
    (splitLines (updateTaskStatus ("- [ ] A\n- [x] B".toList) ("task-1".toList)
      (parsePlanFile ("- [ ] A\n- [x] B".toList)).tasks NewStatus.completed))[1]? =
      (splitLines ("- [ ] A\n- [x] B".toList))[1]? :=
  (((updateTaskStatus_frame ("- [ ] A\n- [x] B".toList) ("task-1".toList)
      NewStatus.completed
      ((parsePlanFile ("- [ ] A\n- [x] B".toList)).tasks.getD 0 default)).2
    (by decide)).1) 1 (by decide)
